import Mathlib

/-!
Shallow embedding of the marker_test repository's core:
`src/marker/schema/text/span.py` (the `cleanup_text` helper and
`Span.assemble_html`) and `src/marker/v2/providers/pdf.py`
(`PdfProvider`: font-format classification, page setup with the
content-quality gate, and the memoized page-image cache).

Python strings are modelled as `String`/`List Char`; Python `set`s of
strings as duplicate-free `List String` with set operations that ignore
order; Python `dict` insertion as an association-list update; Python
floats (font weight/size, bounding boxes) as `Float` values that are
carried but never inspected by any of the verified operations.
-/

/-! ### Python string primitives -/

/-- Characters matched by Python's `\s` (for `str` patterns) and stripped by
`str.strip()`: the Unicode whitespace set used by CPython. -/
def pyWs (c : Char) : Bool :=
  let n := c.toNat
  (9 ≤ n && n ≤ 13) || n == 32 || (28 ≤ n && n ≤ 31) || n == 0x85 || n == 0xa0 ||
    n == 0x1680 || (0x2000 ≤ n && n ≤ 0x200a) || n == 0x2028 || n == 0x2029 ||
    n == 0x202f || n == 0x205f || n == 0x3000

/-- Python `str.strip()`: drop leading and trailing whitespace. -/
def pyStrip (s : String) : String :=
  String.mk (((s.data.dropWhile pyWs).reverse.dropWhile pyWs).reverse)

/-- Python `str.lower()` (ASCII case folding suffices for the verified uses). -/
def pyLower (s : String) : String :=
  String.mk (s.data.map Char.toLower)

/-- Whether `l` starts with `p` (helper for Python's `in` substring test). -/
def startsWithL : List Char → List Char → Bool
  | _, [] => true
  | [], _ :: _ => false
  | c :: cs, p :: ps => c == p && startsWithL cs ps

/-- Python's `pat in hay` substring containment on character lists. -/
def hasSubL : List Char → List Char → Bool
  | [], pat => pat.isEmpty
  | c :: t, pat => startsWithL (c :: t) pat || hasSubL t pat

/-- Python's `pat in hay` substring containment on strings. -/
def strHasSub (hay pat : String) : Bool :=
  hasSubL hay.data pat.data

/-- Truthiness of an optional Python string: `None` and `""` are falsy. -/
def optTruthy : Option String → Bool
  | none => false
  | some s => !s.isEmpty

/-! ### `html.escape` (as called by `Span.assemble_html`) -/

/-- The apostrophe character, kept out of string literals. -/
def aposChar : Char := Char.ofNat 39

/-- The apostrophe as a one-character string. -/
def aposS : String := String.mk [aposChar]

/-- Per-character replacement performed by `html.escape(text)` (CPython runs
five sequential `str.replace` passes, `&` first; since no later pattern occurs
in an earlier replacement string, this equals a single character-wise map). -/
def escapeChar (c : Char) : List Char :=
  if c = '&' then ['&', 'a', 'm', 'p', ';']
  else if c = '<' then ['&', 'l', 't', ';']
  else if c = '>' then ['&', 'g', 't', ';']
  else if c = '"' then ['&', 'q', 'u', 'o', 't', ';']
  else if c = aposChar then ['&', '#', 'x', '2', '7', ';']
  else [c]

/-- `html.escape(text)` on character lists. -/
def htmlEscape (l : List Char) : List Char :=
  (l.map escapeChar).flatten

/-! ### `cleanup_text` (span.py lines 9-12)

`re.sub(r'(\n\s){3,}', '\n\n', full_text)` followed by
`full_text.replace('\xa0', ' ')`.

The regex unit `\n\s` is a newline followed by exactly one whitespace
character; `{3,}` is greedy and nothing follows it in the pattern, so at
each scan position the engine matches the maximal number `k` of consecutive
`\n\s` units and succeeds iff `k ≥ 3`, replacing the `2k` matched characters
by two newlines; otherwise the scanner advances one character. -/

/-- Maximal number of leading `\n`-whitespace pairs, and the remainder after
them (the greedy repetition count of `(\n\s)` at the head of `l`). -/
def munch : List Char → Nat × List Char
  | a :: c :: rest =>
    if a = '\n' ∧ pyWs c = true then
      ((munch rest).1 + 1, (munch rest).2)
    else (0, a :: c :: rest)
  | [] => (0, [])
  | [a] => (0, [a])

/-- One pass of `re.sub(r'(\n\s){3,}', '\n\n', ·)`: scan left to right; where
the greedy repetition count reaches 3 the match is replaced by two newlines
and scanning resumes after it, otherwise one character is emitted. The fuel
argument is an upper bound on the number of scan steps; each step consumes at
least one character, so `l.length` fuel always suffices. -/
def collapseNlAux : Nat → List Char → List Char
  | _, [] => []
  | 0, l => l
  | fuel + 1, c :: rest =>
    if 3 ≤ (munch (c :: rest)).1 then
      '\n' :: '\n' :: collapseNlAux fuel (munch (c :: rest)).2
    else
      c :: collapseNlAux fuel rest

/-- `re.sub(r'(\n\s){3,}', '\n\n', ·)` on character lists. -/
def collapseNl (l : List Char) : List Char :=
  collapseNlAux l.length l

/-- The non-breaking space character `'\xa0'`. -/
def nbspChar : Char := '\xa0'

/-- The replacement `full_text.replace('\xa0', ' ')`, per character. -/
def nbspFix (c : Char) : Char :=
  if c = nbspChar then ' ' else c

/-- `cleanup_text` from `src/marker/schema/text/span.py`. -/
def cleanup_text (full_text : String) : String :=
  String.mk ((collapseNl full_text.data).map nbspFix)

/-! ### The `Span` data model (span.py lines 15-38)

Fields `text` through `anchor` are declared in `Span` itself; `polygon`,
`page_id` and `ignore_for_output` are inherited from the `Block` base class,
which is not part of the sources. Modelled from the spec: every span carries
a bounding polygon, its page index, and an "ignore for output" flag. -/

/-- Bounding polygon; `PolygonBox.from_bbox` (external schema module) wraps a
raw bounding box. Modelled from the spec: spans and lines carry a bounding
polygon built from the raw record's bbox. -/
structure PolygonBox where
  bbox : List Float
deriving Inhabited

/-- `PolygonBox.from_bbox`. -/
def PolygonBox.from_bbox (b : List Float) : PolygonBox :=
  ⟨b⟩

/-- The five format-tag literals admitted by `Span.formats`
(`Literal['plain', 'math', 'chemical', 'bold', 'italic']`). -/
def spanFormatLiterals : List String :=
  ["plain", "math", "chemical", "bold", "italic"]

/-- The `Span` block (span.py); `polygon`, `page_id` and `ignore_for_output`
are the `Block`-inherited fields used by the verified code. -/
structure Span where
  text : String
  font : String
  font_weight : Float
  font_size : Float
  minimum_position : Nat
  maximum_position : Nat
  formats : List String
  url : Option String := none
  anchor : Option String := none
  polygon : PolygonBox := ⟨[]⟩
  page_id : Nat := 0
  ignore_for_output : Bool := false

/-- The `bold` property: `'bold' in self.formats`. -/
def Span.bold (s : Span) : Bool :=
  s.formats.contains "bold"

/-- The `italic` property: `'italic' in self.formats`. -/
def Span.italic (s : Span) : Bool :=
  s.formats.contains "italic"

/-- The `math` property: `'math' in self.formats`. -/
def Span.math (s : Span) : Bool :=
  s.formats.contains "math"

/-- The `Line` block: geometry and page index only. -/
structure Line where
  polygon : PolygonBox
  page_id : Nat

/-! ### `Span.assemble_html` (span.py lines 40-75) -/

/-- Newline or carriage return, the characters popped by the leading/trailing
strip loops of `assemble_html`. -/
def isNlCr (c : Char) : Bool :=
  c == '\n' || c == '\r'

/-- `text.replace("-\n", "")`: remove hyphenated line breaks (left-to-right,
non-overlapping, exactly Python `str.replace`). -/
def removeHyphenNl : List Char → List Char
  | '-' :: '\n' :: rest => removeHyphenNl rest
  | c :: rest => c :: removeHyphenNl rest
  | [] => []

/-- Steps 1-6 of `assemble_html`: trailing/leading newline stripping, the
conditional single-space reinsertion, hyphen-newline joining, HTML escaping
and `cleanup_text`; everything before the wrapper is chosen. -/
def spanCore (s : Span) : String :=
  let t0 := s.text.data
  let revKept := t0.reverse.dropWhile isNlCr
  let replaced_newline := revKept.length ≠ t0.length
  let t1 := revKept.reverse
  let t2 := t1.dropWhile isNlCr
  let t3 := if replaced_newline ∧ t2.getLast? ≠ some '-' then t2 ++ [' '] else t2
  let t4 := removeHyphenNl t3
  let t5 := htmlEscape t4
  (cleanup_text (String.mk t5))

/-- `Span.assemble_html`: empty for ignored spans, otherwise the cleaned text
wrapped by the first matching rule of the `if/elif` chain (italic, bold, math,
url-and-anchor, url, anchor). -/
def Span.assemble_html (s : Span) : String :=
  if s.ignore_for_output then "" else
  let text := spanCore s
  if s.italic then "<i>" ++ text ++ "</i>"
  else if s.bold then "<b>" ++ text ++ "</b>"
  else if s.math then "<math display=" ++ aposS ++ "inline" ++ aposS ++ ">" ++ text ++ "</math>"
  else if optTruthy s.url && optTruthy s.anchor then
    "<span id=" ++ aposS ++ s.anchor.getD "" ++ aposS ++ "><a href=" ++ aposS ++ s.url.getD "" ++
      aposS ++ ">" ++ text ++ "</a></span>"
  else if optTruthy s.url then "<a href=" ++ aposS ++ s.url.getD "" ++ aposS ++ ">" ++ text ++ "</a>"
  else if optTruthy s.anchor then "<span id=" ++ aposS ++ s.anchor.getD "" ++ aposS ++ ">" ++ text ++ "</span>"
  else text

example :
    (Span.assemble_html
      { text := "hello-\nworld", font := "f", font_weight := 0, font_size := 0,
        minimum_position := 0, maximum_position := 0, formats := [] }) = "helloworld" := by
  decide

example :
    (Span.assemble_html
      { text := "foo\n", font := "f", font_weight := 0, font_size := 0,
        minimum_position := 0, maximum_position := 0, formats := [] }) = "foo " := by
  decide

example :
    (Span.assemble_html
      { text := "a\n\n\nb", font := "f", font_weight := 0, font_size := 0,
        minimum_position := 0, maximum_position := 0, formats := [] }) = "a\n\n\nb" := by
  decide

example : cleanup_text "x\n \n \n y" = "x\n\ny" := by decide

example :
    (Span.assemble_html
      { text := "x<y", font := "f", font_weight := 0, font_size := 0,
        minimum_position := 0, maximum_position := 0, formats := ["italic", "bold"] }) =
      "<i>x&lt;y</i>" := by
  decide

/-! ### Python sets of strings

Sets are modelled as duplicate-free lists; `sadd` is `set.add`, `sunion` is
`set.union`, `seteq` is `set ==` (extensional equality), `hasCommon` is the
truthiness of `set & other` (non-empty intersection). -/

/-- Python `set.add`. -/
def sadd (x : String) (s : List String) : List String :=
  if x ∈ s then s else s ++ [x]

/-- Python `a.union(b)`. -/
def sunion (a b : List String) : List String :=
  b.foldl (fun acc x => sadd x acc) a

/-- Python `a == b` on sets: mutual containment. -/
def seteq (a b : List String) : Bool :=
  a.all (fun x => x ∈ b) && b.all (fun x => x ∈ a)

/-- Truthiness of Python `a & b`: some element in common. -/
def hasCommon (a b : List String) : Bool :=
  a.any (fun x => x ∈ b)

/-- Conditional `formats.add(x)` (one `if cond: formats.add(x)` statement). -/
def addIf (c : Bool) (x : String) (s : List String) : List String :=
  if c then sadd x s else s

/-! ### `PdfProvider.font_flags_to_format` (pdf.py lines 37-72) -/

/-- The `flag_map` dictionary: PDF font-descriptor bit positions and their
names, in insertion order. -/
def flag_map : List (Nat × String) :=
  [(1, "FixedPitch"), (2, "Serif"), (3, "Symbolic"), (4, "Script"),
   (6, "Nonsymbolic"), (7, "Italic"), (17, "AllCap"), (18, "SmallCap"),
   (19, "ForceBold"), (20, "UseExternAttr")]

/-- Python `flags & (1 << (bit_position - 1))` truthiness; `flags` is an
arbitrary Python integer, hence `Int` with two's-complement `land`. -/
def flagBitSet (flags : Int) (bit_position : Nat) : Bool :=
  Int.land flags (((1 <<< (bit_position - 1) : Nat) : Int)) ≠ 0

/-- The `set_flags` collection loop plus the `{"Plain"}` fallback for an
empty result. -/
def setFlagsOf (flags : Int) : List String :=
  let sf := flag_map.foldl
    (fun acc p => if flagBitSet flags p.1 then sadd p.2 acc else acc) []
  if sf.isEmpty then sadd "Plain" sf else sf

/-- The plain-indicator flag names of the final membership test
`set_flags & {"FixedPitch", "Serif", "Script", "Nonsymbolic", "AllCap",
"SmallCap", "UseExternAttr"}`. -/
def plainIndicators : List String :=
  ["FixedPitch", "Serif", "Script", "Nonsymbolic", "AllCap", "SmallCap", "UseExternAttr"]

/-- `PdfProvider.font_flags_to_format`. -/
def font_flags_to_format (flags : Int) : List String :=
  let sf := setFlagsOf flags
  if seteq sf ["Symbolic", "Italic"] || seteq sf ["Symbolic", "Italic", "UseExternAttr"] then
    sadd "math" []
  else if seteq sf ["UseExternAttr"] then sadd "plain" []
  else if seteq sf ["Plain"] then sadd "plain" []
  else
    addIf (hasCommon sf plainIndicators) "plain"
      (addIf (hasCommon sf ["ForceBold"]) "bold"
        (addIf (hasCommon sf ["Italic"]) "italic" []))

/-- `PdfProvider.font_names_to_format`. -/
def font_names_to_format (font_name : String) : List String :=
  addIf (strHasSub (pyLower font_name) "ital") "italic"
    (addIf (strHasSub (pyLower font_name) "bold") "bold" [])

/-- The combined classification applied to every span during setup
(pdf.py line 101): flag-based formats unioned with name-based formats. -/
def classify (flags : Int) (font_name : String) : List String :=
  sunion (font_flags_to_format flags) (font_names_to_format font_name)

example : classify 0 "" = ["plain"] := by decide
example : classify 68 "" = ["math"] := by decide
example : classify 524356 "" = ["math"] := by decide
example : classify 4 "" = [] := by decide
example : classify 64 "BoldItalicX" = ["italic", "bold"] := by decide
example : font_flags_to_format 2 = ["plain"] := by decide

/-! ### Raw page records (the external decoding engine's output)

`dictionary_output` (the pdftext engine) is an external collaborator; its
result shape is taken from the spec: an ordered list of page records, each a
tree of blocks, lines and spans, where a span carries a bbox, raw text, a
font descriptor and character start/end offsets. -/

/-- Font descriptor of a raw span: `span["font"]`. -/
structure RawFont where
  name : String
  flags : Int
  weight : Float
  size : Float

/-- One raw span record. -/
structure RawSpan where
  bbox : List Float
  text : String
  font : RawFont
  char_start_idx : Nat
  char_end_idx : Nat

/-- One raw line record. -/
structure RawLine where
  bbox : List Float
  spans : List RawSpan

/-- One raw block record. -/
structure RawBlock where
  lines : List RawLine

/-- One raw page record (`page["page"]` is the page index). -/
structure RawPage where
  page : Nat
  blocks : List RawBlock

/-! ### `PdfProvider.setup` and `check_line_spans` (pdf.py lines 82-137) -/

/-- Construction of one `Span` from a retained raw span (pdf.py lines 101-114):
trimmed text, classified formats, copied font fields and offsets. -/
def buildSpan (page_id : Nat) (sp : RawSpan) : Span :=
  { polygon := PolygonBox.from_bbox sp.bbox
    text := pyStrip sp.text
    font := sp.font.name
    font_weight := sp.font.weight
    font_size := sp.font.size
    minimum_position := sp.char_start_idx
    maximum_position := sp.char_end_idx
    formats := classify sp.font.flags sp.font.name
    page_id := page_id }

/-- The retained spans of one raw line: spans whose text is empty after
`strip()` are skipped (`continue`), the rest are built in order. -/
def buildLineSpans (page_id : Nat) (ln : RawLine) : List Span :=
  ln.spans.filterMap
    (fun sp => if (pyStrip sp.text).isEmpty then none else some (buildSpan page_id sp))

/-- The raw lines of a page in reading order (the `for block: for line:`
double loop visits exactly the concatenation of the blocks' line lists). -/
def rawLines (page : RawPage) : List RawLine :=
  (page.blocks.map RawBlock.lines).flatten

/-- The per-page build: index-aligned `lines` and `line_spans` lists, one
entry per raw line (a `Line` is appended whether or not it retains spans). -/
def buildPage (page : RawPage) : List Line × List (List Span) :=
  ((rawLines page).map (fun ln => Line.mk (PolygonBox.from_bbox ln.bbox) page.page),
   (rawLines page).map (buildLineSpans page.page))

/-- The page-text concatenation of `check_line_spans`: every span's text is
preceded by one space and every line is terminated by one newline. -/
def lineSpanText (line_spans_list : List (List Span)) : String :=
  line_spans_list.foldl
    (fun text line_spans =>
      (line_spans.foldl (fun t sp => t ++ " " ++ sp.text) text) ++ "\n") ""

/-- `PdfProvider.check_line_spans`, the content-quality gate; `detect_bad_ocr`
is an external heuristic, abstracted as the parameter `badOcr`. -/
def check_line_spans (badOcr : String → Bool) (line_spans_list : List (List Span)) : Bool :=
  if (line_spans_list.foldl (fun acc l => acc ++ l) []).length = 0 then false
  else if (pyStrip (lineSpanText line_spans_list)).data.length = 0 then false
  else if badOcr (lineSpanText line_spans_list) then false
  else true

/-- Python `dict` assignment `d[k] = v`: overwrite an existing key in place,
otherwise append in insertion order. -/
def dinsert (m : List (Nat × (List Line × List (List Span)))) (k : Nat)
    (v : List Line × List (List Span)) : List (Nat × (List Line × List (List Span))) :=
  if (m.map Prod.fst).contains k then
    m.map (fun kv => if kv.1 = k then (k, v) else kv)
  else m ++ [(k, v)]

/-- The keys of the page-lines map. -/
def pageKeys (m : List (Nat × (List Line × List (List Span)))) : List Nat :=
  m.map Prod.fst

/-- One iteration of the page-record loop of `PdfProvider.setup` (pdf.py
lines 91-123): build the page, gate it with `check_line_spans`, and store it
in the page-lines map only when accepted. -/
def setupStep (badOcr : String → Bool)
    (page_lines : List (Nat × (List Line × List (List Span)))) (page : RawPage) :
    List (Nat × (List Line × List (List Span))) :=
  let built := buildPage page
  if check_line_spans badOcr built.2 then dinsert page_lines page.page built
  else page_lines

/-- `PdfProvider.setup`'s page loop over the engine's page records, starting
from the empty map. The engine's page records and the bad-OCR heuristic are
the inputs. -/
def setup (pages : List RawPage) (badOcr : String → Bool) :
    List (Nat × (List Line × List (List Span))) :=
  pages.foldl (setupStep badOcr) []

/-- A page record every one of whose raw spans has empty-after-strip text
(this includes pages with no blocks, lines or spans at all). -/
def blankPage (r : RawPage) : Prop :=
  ∀ b ∈ r.blocks, ∀ ln ∈ b.lines, ∀ sp ∈ ln.spans, pyStrip sp.text = ""

instance (r : RawPage) : Decidable (blankPage r) := by
  unfold blankPage; infer_instance

/-! ### The provider object, `__len__`, and the image cache

The native `pdfium.PdfDocument` handle is external. Modelled from the spec:
`page_count()` is the total number of pages of the underlying document, so
the handle is abstracted to that count. -/

/-- The provider state after `__init__`: the native document handle
(abstracted to its page count) and the page-lines map filled by `setup`. -/
structure PdfProvider where
  doc : Nat
  page_lines : List (Nat × (List Line × List (List Span)))

/-- `PdfProvider.__len__`: `len(self.doc)`, the native document's page count. -/
def PdfProvider.page_count (p : PdfProvider) : Nat :=
  p.doc

/-- Provider construction: the document handle is opened on the same file
(giving its full page count) and `setup` fills the page-lines map from
whatever page records the engine returned for the requested page range. -/
def mkProvider (docPageCount : Nat) (enginePages : List RawPage)
    (badOcr : String → Bool) : PdfProvider :=
  { doc := docPageCount, page_lines := setup enginePages badOcr }

/-- Cache lookup for `(idx, dpi)` keys. -/
def cacheFind {Img : Type} (idx dpi : Nat) :
    List ((Nat × Nat) × Img) → Option Img
  | [] => none
  | (k, v) :: rest => if k = (idx, dpi) then some v else cacheFind idx dpi rest

/-- `functools.lru_cache(maxsize=None)` applied to `get_image` (pdf.py lines
139-144): an unbounded per-provider memo table keyed by `(idx, dpi)`.
`raster` is the uncached body (native rasterization at `scale = dpi / 72`,
external). The result is the image, the updated cache, and the number of
rasterizations performed by this call (0 on a hit, 1 on a miss). -/
def get_image {Img : Type} (raster : Nat → Nat → Img)
    (cache : List ((Nat × Nat) × Img)) (idx dpi : Nat) :
    Img × List ((Nat × Nat) × Img) × Nat :=
  match cacheFind idx dpi cache with
  | some img => (img, cache, 0)
  | none => (raster idx dpi, cache ++ [((idx, dpi), raster idx dpi)], 1)

/-- Every cache entry stores exactly the uncached computation's value for its
key (holds for the empty cache a fresh provider starts with, and is preserved
by `get_image`). -/
def cacheCoherent {Img : Type} (raster : Nat → Nat → Img)
    (cache : List ((Nat × Nat) × Img)) : Prop :=
  ∀ kv ∈ cache, kv.2 = raster kv.1.1 kv.1.2

example :
    pageKeys (setup
      [⟨0, [⟨[⟨[], [⟨[], "  ", ⟨"f", 0, 0, 0⟩, 0, 0⟩]⟩]⟩]⟩]
      (fun _ => false)) = [] := by decide

example :
    pageKeys (setup
      [⟨0, [⟨[⟨[], [⟨[], " hi ", ⟨"f", 0, 0, 0⟩, 0, 0⟩]⟩]⟩]⟩]
      (fun _ => false)) = [0] := by decide

/-! ### Helper lemmas about the set model -/

lemma mem_sadd {x : String} {s : List String} {y : String} (h : y ∈ sadd x s) :
    y = x ∨ y ∈ s := by
  unfold sadd at h
  split at h
  · exact Or.inr h
  · rcases List.mem_append.mp h with h1 | h1
    · exact Or.inr h1
    · exact Or.inl (List.mem_singleton.mp h1)

lemma mem_sunion {a b : List String} {y : String} (h : y ∈ sunion a b) :
    y ∈ a ∨ y ∈ b := by
  induction b generalizing a with
  | nil => exact Or.inl h
  | cons x t ih =>
    have h' : y ∈ sunion (sadd x a) t := h
    rcases ih h' with h1 | h1
    · rcases mem_sadd h1 with rfl | h2
      · exact Or.inr (List.mem_cons_self _ _)
      · exact Or.inl h2
    · exact Or.inr (List.mem_cons_of_mem _ h1)

lemma mem_addIf {c : Bool} {x : String} {s : List String} {y : String}
    (h : y ∈ addIf c x s) : y = x ∨ y ∈ s := by
  unfold addIf at h
  split at h
  · exact mem_sadd h
  · exact Or.inr h

/-- Every tag produced by the flag classifier is one of the four it adds. -/
lemma font_flags_mem {flags : Int} {t : String} (h : t ∈ font_flags_to_format flags) :
    t = "math" ∨ t = "plain" ∨ t = "bold" ∨ t = "italic" := by
  simp only [font_flags_to_format] at h
  split_ifs at h
  · rcases mem_sadd h with rfl | h
    · exact Or.inl rfl
    · cases h
  · rcases mem_sadd h with rfl | h
    · exact Or.inr (Or.inl rfl)
    · cases h
  · rcases mem_sadd h with rfl | h
    · exact Or.inr (Or.inl rfl)
    · cases h
  · rcases mem_addIf h with rfl | h
    · exact Or.inr (Or.inl rfl)
    · rcases mem_addIf h with rfl | h
      · exact Or.inr (Or.inr (Or.inl rfl))
      · rcases mem_addIf h with rfl | h
        · exact Or.inr (Or.inr (Or.inr rfl))
        · cases h

/-- Every tag produced by the name classifier is `bold` or `italic`. -/
lemma font_names_mem {name : String} {t : String} (h : t ∈ font_names_to_format name) :
    t = "bold" ∨ t = "italic" := by
  unfold font_names_to_format at h
  rcases mem_addIf h with rfl | h
  · exact Or.inr rfl
  · rcases mem_addIf h with rfl | h
    · exact Or.inl rfl
    · cases h

/-- Every tag produced by the combined classifier is one of the four styles. -/
lemma classify_mem {flags : Int} {name : String} {t : String}
    (h : t ∈ classify flags name) :
    t = "plain" ∨ t = "math" ∨ t = "bold" ∨ t = "italic" := by
  rcases mem_sunion h with h | h
  · rcases font_flags_mem h with h | h | h | h <;> tauto
  · rcases font_names_mem h with h | h <;> tauto

/-! ### Claims about the classifier -/

/-- C2: for every font name containing neither "bold" nor "ital"
(case-insensitively), `classify` applied to the bitmask whose set bits are
exactly {Symbolic, Italic} (68) or exactly {Symbolic, Italic, UseExternAttr}
(524356) returns exactly the singleton set {math}. -/
theorem classify_symbolic_italic_math (name : String)
    (hb : strHasSub (pyLower name) "bold" = false)
    (hi : strHasSub (pyLower name) "ital" = false) :
    classify 68 name = ["math"] ∧ classify 524356 name = ["math"] := by
  have hn : font_names_to_format name = [] := by
    unfold font_names_to_format
    rw [hb, hi]
    rfl
  constructor
  · show sunion (font_flags_to_format 68) (font_names_to_format name) = ["math"]
    rw [hn, show font_flags_to_format 68 = ["math"] from by decide]
    rfl
  · show sunion (font_flags_to_format 524356) (font_names_to_format name) = ["math"]
    rw [hn, show font_flags_to_format 524356 = ["math"] from by decide]
    rfl

theorem classify_symbolic_italic_math_witness :
    (strHasSub (pyLower "Arial") "bold" = false ∧
      strHasSub (pyLower "Arial") "ital" = false) ∧
      classify 68 "Arial" = ["math"] :=
  ⟨⟨by decide, by decide⟩, (classify_symbolic_italic_math "Arial" (by decide) (by decide)).1⟩

/-- C6: `classify` is total — it is a Lean function defined for every integer
bitmask and every name, and every tag it returns is one of the admissible
format literals — and `classify 0 ""` is exactly the singleton {plain}. -/
theorem classify_total_and_zero_plain :
    classify 0 "" = ["plain"] ∧
    ∀ (flags : Int) (name : String) (t : String),
      t ∈ classify flags name → t ∈ spanFormatLiterals := by
  constructor
  · decide
  · intro flags name t h
    rcases classify_mem h with rfl | rfl | rfl | rfl <;> decide

theorem classify_total_and_zero_plain_witness :
    "plain" ∈ spanFormatLiterals :=
  classify_total_and_zero_plain.2 0 "" "plain" (by decide)

/-- C7: the bitmask with only the Symbolic bit set (4), together with a font
name containing neither "bold" nor "ital", produces the empty format set —
no plain default is applied on this path. -/
theorem classify_symbolic_only_empty : classify 4 "" = [] := by
  decide

/-- C10: for every integer bitmask and every font name, the classifier's
result is a subset of {plain, math, bold, italic}; the tag "chemical",
although admitted by the `Span.formats` literal type, is never produced. -/
theorem classify_never_chemical :
    ∀ (flags : Int) (name : String),
      (∀ t ∈ classify flags name, t ∈ ["plain", "math", "bold", "italic"]) ∧
      "chemical" ∉ classify flags name ∧ "chemical" ∈ spanFormatLiterals := by
  intro flags name
  refine ⟨?_, ?_, by decide⟩
  · intro t h
    rcases classify_mem h with rfl | rfl | rfl | rfl <;> decide
  · intro h
    rcases classify_mem h with h | h | h | h <;> exact absurd h (by decide)

theorem classify_never_chemical_witness :
    "plain" ∈ ["plain", "math", "bold", "italic"] ∧ "chemical" ∉ classify 0 "" :=
  ⟨(classify_never_chemical 0 "").1 "plain" (by decide),
    (classify_never_chemical 0 "").2.1⟩

/-! ### Helper lemmas about setup and the quality gate -/

lemma foldl_append_nil {α : Type} {l : List (List α)} (h : ∀ x ∈ l, x = []) :
    ∀ acc : List α, l.foldl (fun a x => a ++ x) acc = acc := by
  induction l with
  | nil => intro _; rfl
  | cons y t ih =>
    intro acc
    simp only [List.foldl_cons]
    rw [h y (List.mem_cons_self _ _), List.append_nil]
    exact ih (fun x hx => h x (List.mem_cons_of_mem _ hx)) acc

/-- On a blank page every retained per-line span list is empty. -/
lemma blank_line_spans {r : RawPage} (h : blankPage r) :
    ∀ ls ∈ (buildPage r).2, ls = [] := by
  intro ls hls
  simp only [buildPage] at hls
  rcases List.mem_map.mp hls with ⟨ln, hln, rfl⟩
  unfold rawLines at hln
  rcases List.mem_flatten.mp hln with ⟨bls, hbls, hln'⟩
  rcases List.mem_map.mp hbls with ⟨b, hb, rfl⟩
  unfold buildLineSpans
  apply List.filterMap_eq_nil_iff.mpr
  intro sp hsp
  rw [h b hb ln hln' sp hsp]
  rfl

/-- The quality gate rejects a blank page (its flattened span list is empty,
so the very first check fires). -/
lemma blank_check {badOcr : String → Bool} {r : RawPage} (h : blankPage r) :
    check_line_spans badOcr (buildPage r).2 = false := by
  unfold check_line_spans
  rw [foldl_append_nil (blank_line_spans h) []]
  rfl

lemma setupStep_blank {badOcr : String → Bool}
    {m : List (Nat × (List Line × List (List Span)))} {r : RawPage}
    (h : blankPage r) : setupStep badOcr m r = m := by
  simp only [setupStep]
  rw [blank_check h]
  rfl

lemma pageKeys_dinsert {m : List (Nat × (List Line × List (List Span)))}
    {k : Nat} {v : List Line × List (List Span)} {p : Nat}
    (hp : p ∉ pageKeys m) (hk : k ≠ p) : p ∉ pageKeys (dinsert m k v) := by
  unfold dinsert
  split
  · intro hmem
    simp only [pageKeys, List.map_map] at hmem
    rcases List.mem_map.mp hmem with ⟨kv, hkv, heq⟩
    simp only [Function.comp] at heq
    split at heq
    · exact hk heq
    · exact hp (List.mem_map.mpr ⟨kv, hkv, heq⟩)
  · intro hmem
    simp only [pageKeys, List.map_append] at hmem
    rcases List.mem_append.mp hmem with h1 | h1
    · exact hp h1
    · exact hk (List.mem_singleton.mp h1).symm

lemma pageKeys_setupStep {badOcr : String → Bool}
    {m : List (Nat × (List Line × List (List Span)))} {r : RawPage} {p : Nat}
    (hm : p ∉ pageKeys m) (hk : r.page ≠ p) :
    p ∉ pageKeys (setupStep badOcr m r) := by
  simp only [setupStep]
  split
  · exact pageKeys_dinsert hm hk
  · exact hm

/-! ### Claims about setup, the provider and the image cache -/

/-- C1: a page every one of whose raw spans has empty-or-whitespace text is
entirely absent from the page-lines map built by `setup` — there is no key
for its page index at all. -/
theorem setup_blank_page_absent (pages : List RawPage) (badOcr : String → Bool)
    (p : Nat) (h : ∀ r ∈ pages, r.page = p → blankPage r) :
    p ∉ pageKeys (setup pages badOcr) := by
  have aux : ∀ (l : List RawPage) (m : List (Nat × (List Line × List (List Span)))),
      p ∉ pageKeys m → (∀ r ∈ l, r.page = p → blankPage r) →
      p ∉ pageKeys (l.foldl (setupStep badOcr) m) := by
    intro l
    induction l with
    | nil => intro m hm _; exact hm
    | cons r rest ih =>
      intro m hm hall
      simp only [List.foldl_cons]
      apply ih
      · by_cases hpr : r.page = p
        · rw [setupStep_blank (hall r (List.mem_cons_self _ _) hpr)]
          exact hm
        · exact pageKeys_setupStep hm hpr
      · intro x hx hxp
        exact hall x (List.mem_cons_of_mem _ hx) hxp
  exact aux pages [] (by simp [pageKeys]) h

/-- A one-page input whose single span is whitespace-only. -/
def blankPages : List RawPage :=
  [⟨0, [⟨[⟨[], [⟨[], "  ", ⟨"f", 0, 0, 0⟩, 0, 0⟩]⟩]⟩]⟩]

theorem setup_blank_page_absent_witness :
    (∀ r ∈ blankPages, r.page = 0 → blankPage r) ∧
    0 ∉ pageKeys (setup blankPages (fun _ => false)) :=
  ⟨by decide, setup_blank_page_absent blankPages (fun _ => false) 0 (by decide)⟩

/-- C8: `page_count()` is the underlying document's total page count and does
not depend on which page records the engine extracted (the `page_range`
restriction) or on what the quality gate dropped. -/
theorem page_count_independent (n : Nat) (pages1 pages2 : List RawPage)
    (b1 b2 : String → Bool) :
    PdfProvider.page_count (mkProvider n pages1 b1) = n ∧
    PdfProvider.page_count (mkProvider n pages1 b1) =
      PdfProvider.page_count (mkProvider n pages2 b2) :=
  ⟨rfl, rfl⟩

lemma cacheFind_mem {Img : Type} {idx dpi : Nat} {c : List ((Nat × Nat) × Img)}
    {img : Img} (h : cacheFind idx dpi c = some img) : ((idx, dpi), img) ∈ c := by
  induction c with
  | nil => cases h
  | cons kv t ih =>
    obtain ⟨k, v⟩ := kv
    unfold cacheFind at h
    split at h
    · rename_i hks
      injection h with h'
      rw [hks, h']
      exact List.mem_cons_self _ _
    · exact List.mem_cons_of_mem _ (ih h)

lemma cacheFind_append_of_none {Img : Type} {idx dpi : Nat}
    {c : List ((Nat × Nat) × Img)} {img : Img} (h : cacheFind idx dpi c = none) :
    cacheFind idx dpi (c ++ [((idx, dpi), img)]) = some img := by
  induction c with
  | nil => simp [cacheFind]
  | cons kv t ih =>
    obtain ⟨k, v⟩ := kv
    unfold cacheFind at h ⊢
    split at h
    · cases h
    · rename_i hks
      rw [List.cons_append]
      show cacheFind idx dpi ((k, v) :: (t ++ [((idx, dpi), img)])) = some img
      unfold cacheFind
      rw [if_neg hks]
      exact ih h

/-- C9: starting from a coherent cache (in particular the empty cache of a
fresh provider), `get_image` returns exactly the uncached rasterization;
calling it again with the same `(idx, dpi)` returns an equal image while
performing zero new rasterizations, and coherence is preserved for the
provider's lifetime. -/
theorem get_image_memoized {Img : Type} (raster : Nat → Nat → Img)
    (cache : List ((Nat × Nat) × Img)) (idx dpi : Nat)
    (h : cacheCoherent raster cache) :
    (get_image raster cache idx dpi).1 = raster idx dpi ∧
    (get_image raster (get_image raster cache idx dpi).2.1 idx dpi).1 =
      (get_image raster cache idx dpi).1 ∧
    (get_image raster (get_image raster cache idx dpi).2.1 idx dpi).2.2 = 0 ∧
    cacheCoherent raster (get_image raster cache idx dpi).2.1 := by
  cases hf : cacheFind idx dpi cache with
  | some img =>
    have himg : img = raster idx dpi := h _ (cacheFind_mem hf)
    have h1 : get_image raster cache idx dpi = (img, cache, 0) := by
      unfold get_image
      rw [hf]
    rw [h1]
    exact ⟨himg, by rw [h1], by rw [h1], h⟩
  | none =>
    have h1 : get_image raster cache idx dpi =
        (raster idx dpi, cache ++ [((idx, dpi), raster idx dpi)], 1) := by
      unfold get_image
      rw [hf]
    have h2 : get_image raster (cache ++ [((idx, dpi), raster idx dpi)]) idx dpi =
        (raster idx dpi, cache ++ [((idx, dpi), raster idx dpi)], 0) := by
      unfold get_image
      rw [cacheFind_append_of_none hf]
    rw [h1, h2]
    refine ⟨rfl, rfl, rfl, ?_⟩
    intro kv hkv
    rcases List.mem_append.mp hkv with h3 | h3
    · exact h kv h3
    · rw [List.mem_singleton.mp h3]

theorem get_image_memoized_witness :
    (get_image (fun i d : Nat => i * 1000 + d) [] 3 72).1 = 3 * 1000 + 72 :=
  (get_image_memoized (fun i d : Nat => i * 1000 + d) [] 3 72
    (fun kv hkv => absurd hkv (List.not_mem_nil kv))).1

/-! ### The wrapper priority order of `assemble_html` (spec side)

The spec describes the wrapper choice as "the first matching rule in this
fixed priority order"; the code is an `if/elif` chain. The list below is the
spec's order, and the refinement theorem below equates the two. -/

/-- The six wrapper rules. -/
inductive WrapRule where
  | italic
  | bold
  | math
  | urlAnchor
  | url
  | anchor
deriving DecidableEq

/-- Whether a rule's guard holds for a span. -/
def ruleMatches (s : Span) : WrapRule → Bool
  | .italic => s.italic
  | .bold => s.bold
  | .math => s.math
  | .urlAnchor => optTruthy s.url && optTruthy s.anchor
  | .url => optTruthy s.url
  | .anchor => optTruthy s.anchor

/-- The fixed priority order of the spec. -/
def priorityOrder : List WrapRule :=
  [.italic, .bold, .math, .urlAnchor, .url, .anchor]

/-- The first matching rule, if any. -/
def firstRule (s : Span) : Option WrapRule :=
  priorityOrder.find? (ruleMatches s)

/-- The single wrapper associated with a rule (`none`: unwrapped). -/
def applyRule (s : Span) (text : String) : Option WrapRule → String
  | none => text
  | some .italic => "<i>" ++ text ++ "</i>"
  | some .bold => "<b>" ++ text ++ "</b>"
  | some .math =>
    "<math display=" ++ aposS ++ "inline" ++ aposS ++ ">" ++ text ++ "</math>"
  | some .urlAnchor =>
    "<span id=" ++ aposS ++ s.anchor.getD "" ++ aposS ++ "><a href=" ++ aposS ++
      s.url.getD "" ++ aposS ++ ">" ++ text ++ "</a></span>"
  | some .url => "<a href=" ++ aposS ++ s.url.getD "" ++ aposS ++ ">" ++ text ++ "</a>"
  | some .anchor =>
    "<span id=" ++ aposS ++ s.anchor.getD "" ++ aposS ++ ">" ++ text ++ "</span>"

/-- C3: for every non-ignored span, `assemble_html` is the cleaned text with
exactly the wrapper of the first matching rule in the priority order italic,
bold, math, url-and-anchor, url, anchor (or no wrapper when none matches);
in particular a span that is both italic and bold is wrapped only by the
italic rule. -/
theorem assemble_single_wrapper (s : Span) (h : s.ignore_for_output = false) :
    Span.assemble_html s = applyRule s (spanCore s) (firstRule s) ∧
    (s.italic = true → s.bold = true →
      Span.assemble_html s = "<i>" ++ spanCore s ++ "</i>") := by
  constructor
  · cases hi : s.italic <;> cases hb : s.bold <;> cases hm : s.math <;>
      cases hu : optTruthy s.url <;> cases ha : optTruthy s.anchor <;>
      simp [Span.assemble_html, h, hi, hb, hm, hu, ha, firstRule, priorityOrder,
        ruleMatches, applyRule, List.find?]
  · intro hi _
    simp [Span.assemble_html, h, hi]

/-- A concrete span that is both bold and italic. -/
def boldItalicSpan : Span :=
  { text := "x", font := "f", font_weight := 0, font_size := 0,
    minimum_position := 0, maximum_position := 0, formats := ["bold", "italic"] }

theorem assemble_single_wrapper_witness :
    boldItalicSpan.ignore_for_output = false ∧
    Span.assemble_html boldItalicSpan =
      applyRule boldItalicSpan (spanCore boldItalicSpan) (firstRule boldItalicSpan) :=
  ⟨rfl, (assemble_single_wrapper boldItalicSpan rfl).1⟩

/-- A span whose text is "hello-\nworld" with no formats and no link fields. -/
def hyphenSpan : Span :=
  { text := "hello-\nworld", font := "f", font_weight := 0, font_size := 0,
    minimum_position := 0, maximum_position := 0, formats := [] }

/-- C4: rendering "hello-\nworld" with no formats, no url, no anchor and
`ignore_for_output` unset yields exactly "helloworld", unwrapped. -/
theorem assemble_hyphen_newline_join :
    Span.assemble_html hyphenSpan = "helloworld" := by
  decide

/-! ### The newline-collapse claim (C5)

The claim reads the regex unit as "newline optionally followed by
whitespace". The code's unit `\n\s` requires the whitespace character, so a
run of three bare newlines — three occurrences of the claimed unit with the
option not taken — is not touched by `cleanup_text`. -/

/-- A span whose text holds a run of three bare newlines. -/
def tripleNlSpan : Span :=
  { text := "a\n\n\nb", font := "f", font_weight := 0, font_size := 0,
    minimum_position := 0, maximum_position := 0, formats := [] }

/-- C5 counterexample: under the claim, rendering "a\n\n\nb" would collapse
the run into exactly two newlines ("a\n\nb"); the code returns the text
unchanged, so a run of three newline occurrences survives rendering. -/
theorem cleanup_claim_counterexample :
    Span.assemble_html tripleNlSpan = "a\n\n\nb" ∧
    hasSubL (Span.assemble_html tripleNlSpan).data ['\n', '\n', '\n'] = true ∧
    Span.assemble_html tripleNlSpan ≠ "a\n\nb" := by
  decide

/-- A run of exactly `k` occurrences of the regex unit `\n\s`: `k`
newline-whitespace pairs, whose whitespace characters may differ from pair
to pair. -/
inductive IsNlWsRun : List Char → Nat → Prop where
  | nil : IsNlWsRun [] 0
  | pair (c : Char) (hc : pyWs c = true) {r : List Char} {k : Nat}
      (h : IsNlWsRun r k) : IsNlWsRun ('\n' :: c :: r) (k + 1)

/-- Left-maximality of a run boundary, read off the reversed prefix: the
prefix before a run does not end with a bare newline (which would extend the
run's first pair leftwards) and does not end with a `\n`-whitespace pair
(which would belong to the same maximal run). -/
def noTailRunRev : List Char → Bool
  | [] => true
  | [x] => x != '\n'
  | x :: y :: _ => x != '\n' && !(y == '\n' && pyWs x)

/-- Left-maximality of a run boundary for the prefix itself. -/
def noTailRun (pre : List Char) : Bool :=
  noTailRunRev pre.reverse

lemma munch_head_ne {a : Char} (ha : a ≠ '\n') (l : List Char) :
    munch (a :: l) = (0, a :: l) := by
  cases l with
  | nil => rfl
  | cons y t =>
    simp only [munch]
    rw [if_neg]
    intro hcon
    exact ha hcon.1

lemma collapseNlAux_nil (f : Nat) : collapseNlAux f [] = [] := by
  cases f <;> rfl

lemma collapseNlAux_no {f : Nat} {x : Char} {l : List Char}
    (h : (munch (x :: l)).1 < 3) :
    collapseNlAux (f + 1) (x :: l) = x :: collapseNlAux f l := by
  simp only [collapseNlAux]
  rw [if_neg (by omega)]

lemma collapseNlAux_yes {f : Nat} {x : Char} {l : List Char}
    (h : 3 ≤ (munch (x :: l)).1) :
    collapseNlAux (f + 1) (x :: l) =
      '\n' :: '\n' :: collapseNlAux f (munch (x :: l)).2 := by
  simp only [collapseNlAux]
  rw [if_pos h]

lemma munch_len_aux : ∀ (n : Nat) (l : List Char), l.length ≤ n →
    (munch l).2.length + 2 * (munch l).1 = l.length := by
  intro n
  induction n with
  | zero =>
    intro l hl
    have : l = [] := List.length_eq_zero.mp (Nat.le_zero.mp hl)
    subst this
    rfl
  | succ n ih =>
    intro l hl
    rcases l with _ | ⟨a, _ | ⟨c, rest⟩⟩
    · rfl
    · rfl
    · by_cases hp : a = '\n' ∧ pyWs c = true
      · have e : munch (a :: c :: rest) = ((munch rest).1 + 1, (munch rest).2) := by
          simp only [munch]
          rw [if_pos hp]
        rw [e]
        have hr := ih rest (by simp at hl; omega)
        show (munch rest).2.length + 2 * ((munch rest).1 + 1) = rest.length + 2
        omega
      · have e : munch (a :: c :: rest) = (0, a :: c :: rest) := by
          simp only [munch]
          rw [if_neg hp]
        rw [e]
        show (a :: c :: rest).length + 2 * 0 = (a :: c :: rest).length
        omega

/-- The greedy repetition consumes exactly two characters per unit. -/
lemma munch_len (l : List Char) :
    (munch l).2.length + 2 * (munch l).1 = l.length :=
  munch_len_aux l.length l le_rfl

lemma munch_suffix_aux : ∀ (n : Nat) (l : List Char), l.length ≤ n →
    (munch l).2 <:+ l := by
  intro n
  induction n with
  | zero =>
    intro l hl
    have : l = [] := List.length_eq_zero.mp (Nat.le_zero.mp hl)
    subst this
    exact List.suffix_refl _
  | succ n ih =>
    intro l hl
    rcases l with _ | ⟨a, _ | ⟨c, rest⟩⟩
    · exact List.suffix_refl _
    · exact List.suffix_refl _
    · by_cases hp : a = '\n' ∧ pyWs c = true
      · have e : munch (a :: c :: rest) = ((munch rest).1 + 1, (munch rest).2) := by
          simp only [munch]
          rw [if_pos hp]
        rw [e]
        show (munch rest).2 <:+ a :: c :: rest
        exact (ih rest (by simp at hl; omega)).trans
          ((List.suffix_cons c rest).trans (List.suffix_cons a (c :: rest)))
      · have e : munch (a :: c :: rest) = (0, a :: c :: rest) := by
          simp only [munch]
          rw [if_neg hp]
        rw [e]

/-- The remainder of the greedy repetition is a suffix of the input. -/
lemma munch_suffix (l : List Char) : (munch l).2 <:+ l :=
  munch_suffix_aux l.length l le_rfl

/-- When the greedy repetition matches nothing, the remainder is the input. -/
lemma munch_zero_snd {l : List Char} (h : (munch l).1 = 0) : (munch l).2 = l := by
  rcases l with _ | ⟨a, _ | ⟨c, rest⟩⟩
  · rfl
  · rfl
  · by_cases hp : a = '\n' ∧ pyWs c = true
    · have e : munch (a :: c :: rest) = ((munch rest).1 + 1, (munch rest).2) := by
        simp only [munch]
        rw [if_pos hp]
      rw [e] at h
      simp at h
    · simp only [munch]
      rw [if_neg hp]

/-- The greedy repetition over an entire run of `k` units continues into the
rest of the text. -/
lemma munch_run {r : List Char} {k : Nat} (h : IsNlWsRun r k) (rest : List Char) :
    munch (r ++ rest) = ((munch rest).1 + k, (munch rest).2) := by
  induction h with
  | nil => simp
  | pair c hc h ih =>
    rename_i r' k'
    show munch ('\n' :: c :: (r' ++ rest)) = _
    simp [munch, hc, ih, Nat.add_assoc]

/-- The scan result does not depend on the fuel, as long as the fuel covers
the input length. -/
lemma collapseNlAux_congr : ∀ (n : Nat) (l : List Char) (f₁ f₂ : Nat),
    l.length ≤ n → l.length ≤ f₁ → l.length ≤ f₂ →
    collapseNlAux f₁ l = collapseNlAux f₂ l := by
  intro n
  induction n with
  | zero =>
    intro l f₁ f₂ h0 _ _
    have : l = [] := List.length_eq_zero.mp (Nat.le_zero.mp h0)
    subst this
    rw [collapseNlAux_nil, collapseNlAux_nil]
  | succ n ih =>
    intro l f₁ f₂ hn h1 h2
    rcases l with _ | ⟨x, t⟩
    · rw [collapseNlAux_nil, collapseNlAux_nil]
    · obtain ⟨g₁, rfl⟩ : ∃ g, f₁ = g + 1 := ⟨f₁ - 1, by simp at h1; omega⟩
      obtain ⟨g₂, rfl⟩ : ∃ g, f₂ = g + 1 := ⟨f₂ - 1, by simp at h2; omega⟩
      have hlen := munch_len (x :: t)
      simp only [List.length_cons] at hn h1 h2 hlen
      by_cases hm : 3 ≤ (munch (x :: t)).1
      · rw [collapseNlAux_yes hm, collapseNlAux_yes hm]
        rw [ih (munch (x :: t)).2 g₁ g₂ (by omega) (by omega) (by omega)]
      · rw [collapseNlAux_no (by omega), collapseNlAux_no (by omega)]
        rw [ih t g₁ g₂ (by omega) (by omega) (by omega)]

/-- Scan step on a position where the repetition count is below three. -/
lemma collapseNl_cons_no {x : Char} {t : List Char} (h : (munch (x :: t)).1 < 3) :
    collapseNl (x :: t) = x :: collapseNl t := by
  show collapseNlAux (t.length + 1) (x :: t) = x :: collapseNlAux t.length t
  rw [collapseNlAux_no h]

/-- Scan step on a position where a replacement fires. -/
lemma collapseNl_cons_yes {x : Char} {t : List Char} (h : 3 ≤ (munch (x :: t)).1) :
    collapseNl (x :: t) = '\n' :: '\n' :: collapseNl (munch (x :: t)).2 := by
  show collapseNlAux (t.length + 1) (x :: t) =
    '\n' :: '\n' :: collapseNlAux (munch (x :: t)).2.length (munch (x :: t)).2
  rw [collapseNlAux_yes h]
  have hlen := munch_len (x :: t)
  simp only [List.length_cons] at hlen
  rw [collapseNlAux_congr t.length (munch (x :: t)).2 t.length (munch (x :: t)).2.length
    (by omega) (by omega) (by omega)]

/-- A nonempty run ends with a `\n`-whitespace pair. -/
lemma IsNlWsRun.ends : ∀ {r : List Char} {k : Nat}, IsNlWsRun r k → r ≠ [] →
    ∃ (t : List Char) (c : Char), pyWs c = true ∧ r = t ++ ['\n', c] := by
  intro r k h
  induction h with
  | nil => intro hne; exact absurd rfl hne
  | pair c hc h ih =>
    rename_i r0 k0
    intro _
    by_cases h0 : r0 = []
    · subst h0
      exact ⟨[], c, hc, rfl⟩
    · obtain ⟨t, c', hc', heq⟩ := ih h0
      exact ⟨'\n' :: c :: t, c', hc', by rw [heq]; rfl⟩

lemma noTailRun_getLast {pre : List Char} (h : noTailRun pre = true) :
    pre.getLast? ≠ some '\n' := by
  rw [← List.head?_reverse]
  have h' : noTailRunRev pre.reverse = true := h
  rcases hrev : pre.reverse with _ | ⟨x, _ | ⟨y, l⟩⟩
  · simp
  · rw [hrev] at h'
    simp only [noTailRunRev] at h'
    simp only [List.head?_cons, ne_eq, Option.some.injEq]
    intro hcontra
    rw [hcontra] at h'
    simp at h'
  · rw [hrev] at h'
    simp only [noTailRunRev, Bool.and_eq_true] at h'
    obtain ⟨h1, _⟩ := h'
    simp only [List.head?_cons, ne_eq, Option.some.injEq]
    intro hcontra
    rw [hcontra] at h1
    simp at h1

/-- A munch that starts inside a left-maximal prefix stays inside it: no
suffix of the prefix merges with the following text. -/
lemma munch_append_split (X : List Char) : ∀ (n : Nat) (t : List Char),
    t.length ≤ n → t ≠ [] → t.getLast? ≠ some '\n' →
    (∀ k, IsNlWsRun t k → False) →
    munch (t ++ X) = ((munch t).1, (munch t).2 ++ X) := by
  intro n
  induction n with
  | zero =>
    intro t h0 hne _ _
    exact absurd (List.length_eq_zero.mp (Nat.le_zero.mp h0)) hne
  | succ n ih =>
    intro t hlen hne hlast hrun
    rcases t with _ | ⟨a, _ | ⟨c, rest⟩⟩
    · exact absurd rfl hne
    · have ha : a ≠ '\n' := by
        intro hcontra
        exact hlast (by rw [hcontra]; rfl)
      show munch (a :: X) = ((munch [a]).1, (munch [a]).2 ++ X)
      rw [munch_head_ne ha]
      rfl
    · by_cases hp : a = '\n' ∧ pyWs c = true
      · obtain ⟨rfl, hc⟩ := hp
        rcases rest with _ | ⟨d, rest'⟩
        · exact absurd (IsNlWsRun.pair c hc IsNlWsRun.nil) (fun hcon => hrun 1 hcon)
        · have egl : ('\n' :: c :: d :: rest').getLast? = (d :: rest').getLast? := by
            rw [List.getLast?_cons_cons, List.getLast?_cons_cons]
          have hlast' : (d :: rest').getLast? ≠ some '\n' := by
            intro hcontra
            exact hlast (by rw [egl]; exact hcontra)
          have hrun' : ∀ k, IsNlWsRun (d :: rest') k → False := fun k hk =>
            hrun (k + 1) (IsNlWsRun.pair c hc hk)
          have ih' := ih (d :: rest') (by simp at hlen ⊢; omega) (by simp) hlast' hrun'
          have e1 : munch (('\n' :: c :: (d :: rest')) ++ X) =
              ((munch ((d :: rest') ++ X)).1 + 1, (munch ((d :: rest') ++ X)).2) := by
            show munch ('\n' :: c :: ((d :: rest') ++ X)) = _
            simp [munch, hc]
          have e2 : munch ('\n' :: c :: (d :: rest')) =
              ((munch (d :: rest')).1 + 1, (munch (d :: rest')).2) := by
            simp [munch, hc]
          rw [e1, ih', e2]
      · have e1 : munch ((a :: c :: rest) ++ X) = (0, a :: c :: (rest ++ X)) := by
          show munch (a :: c :: (rest ++ X)) = _
          simp only [munch]
          rw [if_neg hp]
        have e2 : munch (a :: c :: rest) = (0, a :: c :: rest) := by
          simp only [munch]
          rw [if_neg hp]
        rw [e1, e2]
        rfl

/-- A left-maximal prefix satisfies the munch-splitting condition for any
following text. -/
lemma noTailRun_split {pre : List Char} (h : noTailRun pre = true) (X : List Char) :
    ∀ t, t ≠ [] → t <:+ pre → munch (t ++ X) = ((munch t).1, (munch t).2 ++ X) := by
  intro t ht hts
  obtain ⟨s, rfl⟩ := hts
  apply munch_append_split X t.length t le_rfl ht
  · have hg := noTailRun_getLast h
    rw [List.getLast?_append_of_ne_nil s ht] at hg
    exact hg
  · intro k hk
    obtain ⟨t', c, hc, rfl⟩ := IsNlWsRun.ends hk ht
    have hrev : (s ++ (t' ++ ['\n', c])).reverse = c :: '\n' :: (t'.reverse ++ s.reverse) := by
      simp [List.reverse_append]
    unfold noTailRun at h
    rw [hrev] at h
    simp [noTailRunRev, hc] at h

/-- The scanner processes a left-maximal prefix independently of the text
that follows it. -/
lemma collapseNl_append_split (X : List Char) : ∀ (n : Nat) (pre : List Char),
    pre.length ≤ n →
    (∀ t, t ≠ [] → t <:+ pre → munch (t ++ X) = ((munch t).1, (munch t).2 ++ X)) →
    collapseNl (pre ++ X) = collapseNl pre ++ collapseNl X := by
  intro n
  induction n with
  | zero =>
    intro pre h0 _
    have : pre = [] := List.length_eq_zero.mp (Nat.le_zero.mp h0)
    subst this
    rfl
  | succ n ih =>
    intro pre hlen hsplit
    rcases pre with _ | ⟨p, pre'⟩
    · rfl
    · have hsp : munch ((p :: pre') ++ X) =
          ((munch (p :: pre')).1, (munch (p :: pre')).2 ++ X) :=
        hsplit (p :: pre') (by simp) (List.suffix_refl _)
      by_cases hm : 3 ≤ (munch (p :: pre')).1
      · have hmX : 3 ≤ (munch (p :: (pre' ++ X))).1 := by
          have e : munch (p :: (pre' ++ X)) =
              ((munch (p :: pre')).1, (munch (p :: pre')).2 ++ X) := hsp
          rw [e]
          exact hm
        show collapseNl (p :: (pre' ++ X)) = collapseNl (p :: pre') ++ collapseNl X
        rw [collapseNl_cons_yes hmX, collapseNl_cons_yes hm]
        have e : munch (p :: (pre' ++ X)) =
            ((munch (p :: pre')).1, (munch (p :: pre')).2 ++ X) := hsp
        rw [e]
        show '\n' :: '\n' :: collapseNl ((munch (p :: pre')).2 ++ X) =
          '\n' :: '\n' :: (collapseNl (munch (p :: pre')).2 ++ collapseNl X)
        have hml := munch_len (p :: pre')
        simp only [List.length_cons] at hml hlen
        have hMsuf : (munch (p :: pre')).2 <:+ p :: pre' := munch_suffix _
        rw [ih (munch (p :: pre')).2 (by omega)
          (fun t ht hts => hsplit t ht (hts.trans hMsuf))]
      · have hmX : (munch (p :: (pre' ++ X))).1 < 3 := by
          have e : munch (p :: (pre' ++ X)) =
              ((munch (p :: pre')).1, (munch (p :: pre')).2 ++ X) := hsp
          rw [e]
          show (munch (p :: pre')).1 < 3
          omega
        show collapseNl (p :: (pre' ++ X)) = collapseNl (p :: pre') ++ collapseNl X
        rw [collapseNl_cons_no hmX, collapseNl_cons_no (by omega)]
        show p :: collapseNl (pre' ++ X) = p :: (collapseNl pre' ++ collapseNl X)
        simp only [List.length_cons] at hlen
        rw [ih pre' (by omega)
          (fun t ht hts => hsplit t ht (hts.trans (List.suffix_cons p pre')))]

/-- C5 amended: in the cleanup step of render, every run of three or more
occurrences of "newline followed by a whitespace character" is collapsed
into exactly two newlines, and every non-breaking-space character is
replaced by an ordinary space. The first conjunct covers an arbitrary
maximal run — mixed whitespace characters allowed, empty or arbitrary
context on both sides (`noTailRun pre` is left-maximality, `(munch suf).1 =
0` right-maximality) — and is compositional: the suffix is processed
independently, so texts with several runs are handled by repeated
application. The second conjunct states the non-breaking-space replacement
pointwise: positions holding a non-breaking space after the collapse become
an ordinary space, and every other position is unchanged. -/
theorem cleanup_collapse_amended (pre r suf : List Char) (k : Nat)
    (hr : IsNlWsRun r k) (hk : 3 ≤ k)
    (hpre : noTailRun pre = true) (hsuf : (munch suf).1 = 0) :
    cleanup_text (String.mk (pre ++ r ++ suf)) =
      String.mk ((cleanup_text (String.mk pre)).data ++
        '\n' :: '\n' :: (cleanup_text (String.mk suf)).data) ∧
    (∀ (s : String) (i : Nat),
      ((collapseNl s.data)[i]? = some nbspChar →
        (cleanup_text s).data[i]? = some ' ') ∧
      (∀ c : Char, (collapseNl s.data)[i]? = some c → c ≠ nbspChar →
        (cleanup_text s).data[i]? = some c)) := by
  constructor
  · have hXcol : collapseNl (r ++ suf) = '\n' :: '\n' :: collapseNl suf := by
      cases hr with
      | nil => exact absurd hk (by decide)
      | pair c hc h =>
        rename_i r' k'
        have hm : munch (('\n' :: c :: r') ++ suf) =
            ((munch suf).1 + (k' + 1), (munch suf).2) :=
          munch_run (IsNlWsRun.pair c hc h) suf
        have hm' : munch ('\n' :: (c :: (r' ++ suf))) =
            ((munch suf).1 + (k' + 1), (munch suf).2) := hm
        show collapseNl ('\n' :: (c :: (r' ++ suf))) = '\n' :: '\n' :: collapseNl suf
        rw [collapseNl_cons_yes (by
          rw [hm']
          show 3 ≤ (munch suf).1 + (k' + 1)
          omega)]
        rw [hm']
        show '\n' :: '\n' :: collapseNl (munch suf).2 = '\n' :: '\n' :: collapseNl suf
        rw [munch_zero_snd hsuf]
    have hsep := collapseNl_append_split (r ++ suf) pre.length pre le_rfl
      (noTailRun_split hpre (r ++ suf))
    refine congrArg String.mk ?_
    show (collapseNl (pre ++ r ++ suf)).map nbspFix =
      (collapseNl pre).map nbspFix ++ '\n' :: '\n' :: (collapseNl suf).map nbspFix
    rw [List.append_assoc, hsep, hXcol]
    have fn : nbspFix '\n' = '\n' := rfl
    simp [List.map_append, fn]
  · intro s i
    have hd : (cleanup_text s).data = (collapseNl s.data).map nbspFix := rfl
    constructor
    · intro h
      rw [hd, List.getElem?_map, h]
      rfl
    · intro c hc hne
      rw [hd, List.getElem?_map, hc]
      show some (nbspFix c) = some c
      rw [show nbspFix c = c from by unfold nbspFix; rw [if_neg hne]]

theorem cleanup_collapse_amended_witness :
    (noTailRun ['x'] = true ∧ (munch ['y']).1 = 0 ∧
      pyWs '\t' = true ∧ pyWs ' ' = true ∧ pyWs '\x0b' = true) ∧
    cleanup_text (String.mk (['x'] ++ ['\n', '\t', '\n', ' ', '\n', '\x0b'] ++ ['y'])) =
      String.mk ((cleanup_text (String.mk ['x'])).data ++
        '\n' :: '\n' :: (cleanup_text (String.mk ['y'])).data) :=
  ⟨⟨by decide, by decide, by decide, by decide, by decide⟩,
    (cleanup_collapse_amended ['x'] ['\n', '\t', '\n', ' ', '\n', '\x0b'] ['y'] 3
      (IsNlWsRun.pair '\t' (by decide) (IsNlWsRun.pair ' ' (by decide)
        (IsNlWsRun.pair '\x0b' (by decide) IsNlWsRun.nil)))
      (by decide) (by decide) (by decide)).1⟩

example : cleanup_text "x\n\t\n \n\x0by" = "x\n\ny" := by decide

example : cleanup_text "a\n \n \n b\n\t\n\t\n\tc" = "a\n\nb\n\nc" := by decide

example : cleanup_text "\n \n \n " = "\n\n" := by decide

example : cleanup_text "a\xa0b" = "a b" := by decide
